import Mathlib

/-!
Shallow embedding of the PATH value engine of PathEditorNative (src/main.rs)
and proofs about it.  Strings are embedded as `List Char`; the process
environment is a partial map from names to values; registry and OS calls are
modelled as explicit state plus a trace of external effects.
-/

namespace PathEditorNative

/-- Registry value types, mirroring winreg's RegType enum as imported in
main.rs (REG_SZ is the plain-string subtype, REG_EXPAND_SZ the
environment-expandable-string subtype; the spec calls them Plain and
Expandable). -/
inductive RegType where
  | REG_NONE
  | REG_SZ
  | REG_EXPAND_SZ
  | REG_BINARY
  | REG_DWORD
  | REG_DWORD_BIG_ENDIAN
  | REG_LINK
  | REG_MULTI_SZ
  | REG_RESOURCE_LIST
  | REG_FULL_RESOURCE_DESCRIPTOR
  | REG_RESOURCE_REQUIREMENTS_LIST
  | REG_QWORD
deriving DecidableEq

/-- The process environment seen by std::env::var (main.rs:738): a lookup
that fails (variable unset, or not unicode) is `none`. -/
abbrev EnvMap := List Char → Option (List Char)

/-- Whitespace test backing Rust's str::trim; embedded via Char.isWhitespace
(agrees with Rust on ASCII whitespace, which is all the claims exercise). -/
def isWsChar (c : Char) : Bool := c.isWhitespace

/-- str::trim as used at main.rs:715, 759: drop whitespace from both ends. -/
def trim (l : List Char) : List Char :=
  ((l.dropWhile isWsChar).reverse.dropWhile isWsChar).reverse

/-- str::split(';') (main.rs:714): cut the character list at every ';',
yielding the (possibly empty) pieces in order; the empty input yields one
empty piece, exactly as Rust's split does. -/
def splitSemi : List Char → List (List Char)
  | [] => [[]]
  | c :: rest =>
    if c = ';' then [] :: splitSemi rest
    else
      match splitSemi rest with
      | [] => [[c]]
      | p :: ps => (c :: p) :: ps

/-- split_path (main.rs:713-719): split on ';', trim each piece, drop the
pieces that are empty after trimming. -/
def split_path (path : List Char) : List (List Char) :=
  ((splitSemi path).map trim).filter fun p => !p.isEmpty

/-- join_path (main.rs:721-723): Vec::join(";") - one ';' between consecutive
pieces, no trailing separator. -/
def join_path : List (List Char) → List Char
  | [] => []
  | [x] => x
  | x :: xs => x ++ ';' :: join_path xs

mutual
/-- expand_env_vars (main.rs:725-756).  The Rust index loop is rendered as a
three-state scanner so the definition is structurally recursive (hence
kernel-computable): this function is the top of the `while i < chars.len()`
loop; `expandAfterPercent` is the state just after reading a '%' (the inner
`while` searching for the closing '%'); `expandNameScan` carries the name
characters read so far, in reverse. -/
def expand_env_vars (env : EnvMap) : List Char → List Char
  | [] => []
  | c :: rest =>
    if c = '%' then expandAfterPercent env rest
    else c :: expand_env_vars env rest

/-- State of expand_env_vars after an opening '%'.  An immediately following
'%' is the empty-name case (j = i + 1 in main.rs:736): the first '%' is
emitted verbatim and scanning resumes at the second.  End of input is the
unmatched case: the '%' is emitted verbatim. -/
def expandAfterPercent (env : EnvMap) : List Char → List Char
  | [] => ['%']
  | c :: rest =>
    if c = '%' then '%' :: expandAfterPercent env rest
    else expandNameScan env [c] rest

/-- Scanning a candidate %NAME% body (main.rs:733-735).  At the closing '%'
the variable is looked up: a set variable substitutes its value verbatim
(never re-expanded, main.rs:739) and scanning resumes after the closing '%';
an unset variable re-emits `%NAME%` (main.rs:740-744).  End of input without
a closing '%' re-emits the '%' and the scanned characters verbatim
(main.rs:751-752, which pushes them one at a time; none of them is a '%'). -/
def expandNameScan (env : EnvMap) (accRev : List Char) : List Char → List Char
  | [] => '%' :: accRev.reverse
  | c :: rest =>
    if c = '%' then
      match env accRev.reverse with
      | some v => v ++ expand_env_vars env rest
      | none => '%' :: (accRev.reverse ++ '%' :: expand_env_vars env rest)
    else expandNameScan env (c :: accRev) rest
end

/-- The predicate `chars[j] != '%'` of the inner scans in main.rs. -/
def notPercent (d : Char) : Bool := decide (d ≠ '%')

/-- has_env_token (main.rs:782-798): at each '%' at position i, look for the
next '%' at position j; report true iff some such pair has j < len and
j > i + 1.  The search for j is `takeWhile`/`dropWhile` over the tail; on
failure the outer scan advances by one character. -/
def has_env_token : List Char → Bool
  | [] => false
  | c :: rest =>
    if c = '%' then
      if !(rest.dropWhile notPercent).isEmpty && !(rest.takeWhile notPercent).isEmpty then
        true
      else has_env_token rest
    else has_env_token rest

/-- The '/'→'\' replacement of normalize_for_compare (main.rs:759). -/
def replaceSlashes (l : List Char) : List Char :=
  l.map fun c => if c = '/' then '\\' else c

/-- str::to_lowercase (main.rs:759), embedded as per-character Char.toLower
(agrees with Rust on ASCII, which is all the claims exercise). -/
def lowercase (l : List Char) : List Char := l.map Char.toLower

/-- The trailing-backslash loop of normalize_for_compare (main.rs:760-762):
while the string ends with '\', pop it. -/
def stripTrailingBackslashes (l : List Char) : List Char :=
  (l.reverse.dropWhile fun c => decide (c = '\\')).reverse

/-- normalize_for_compare (main.rs:758-764): expand, replace '/' with '\',
trim, lowercase, then strip trailing '\' characters. -/
def normalize_for_compare (env : EnvMap) (path : List Char) : List Char :=
  stripTrailingBackslashes (lowercase (trim (replaceSlashes (expand_env_vars env path))))

/-- The loop of dedupe (main.rs:769-774); `seen` is the HashSet of compare
keys inserted so far, embedded as a list queried by membership (HashSet's
insert returns false exactly when the key is already a member). -/
def dedupeGo (env : EnvMap) (seen : List (List Char)) :
    List (List Char) → List (List Char)
  | [] => []
  | p :: ps =>
    let key := normalize_for_compare env p
    if key ∈ seen then dedupeGo env seen ps
    else p :: dedupeGo env (key :: seen) ps

/-- dedupe (main.rs:766-776): first-occurrence-wins filtering by compare key,
keeping the original text of kept entries. -/
def dedupe (env : EnvMap) (parts : List (List Char)) : List (List Char) :=
  dedupeGo env [] parts

/-- BTreeSet insert on its sorted, duplicate-free list representation:
place x at its ordered position, keeping the list unchanged if present. -/
def setInsert (x : Nat) : List Nat → List Nat
  | [] => [x]
  | y :: ys =>
    if x < y then x :: y :: ys
    else if x = y then y :: ys
    else y :: setInsert x ys

/-- PathStore (main.rs:47-53): ordered entries, filter text, selected indices
(a BTreeSet of usize, embedded as its sorted duplicate-free element list, so
that iterating the list is the set's ascending iteration order), and the
registry value type the scope was read as. -/
structure PathStore where
  parts : List (List Char)
  filter : List Char
  selected : List Nat
  reg_type : RegType
deriving DecidableEq

/-- Vec::swap as used by move_selected (main.rs:218, 226).  Out-of-range
indices, which would panic in Rust and are unreachable in the app flow, are
no-ops here. -/
def listSwap (l : List (List Char)) (i j : Nat) : List (List Char) :=
  (l.set i (l.getD j [])).set j (l.getD i [])

/-- Outcome of move_selected: the filter-active rejection dialog
(main.rs:199-207), the silent empty-selection return (main.rs:210-212), or a
performed move (main.rs:232-233). -/
inductive MoveOutcome where
  | filteredReject
  | noSelection
  | moved
deriving DecidableEq

/-- move_selected (main.rs:197-234).  A non-empty trimmed filter rejects the
move before touching anything.  Otherwise, for "up" (direction < 0) iterate
the ORIGINAL selection `old` in ascending order and swap idx with idx-1
unless idx = 0 or idx-1 is in `old`; for "down" iterate descending and swap
idx with idx+1 unless idx+1 is out of range or in `old`.  The new selection
tracks moved entries (remove idx, insert its new position). -/
def move_selected (st : PathStore) (direction : Int) : PathStore × MoveOutcome :=
  if !(trim st.filter).isEmpty then (st, .filteredReject)
  else
    let old := st.selected
    if old = [] then (st, .noSelection)
    else
      if direction < 0 then
        let res := old.foldl
          (fun acc idx =>
            if 0 < idx ∧ ¬ (idx - 1) ∈ old then
              (listSwap acc.1 idx (idx - 1), setInsert (idx - 1) (acc.2.erase idx))
            else acc)
          (st.parts, old)
        ({ st with parts := res.1, selected := res.2 }, .moved)
      else
        let res := old.reverse.foldl
          (fun acc idx =>
            if idx + 1 < acc.1.length ∧ ¬ (idx + 1) ∈ old then
              (listSwap acc.1 idx (idx + 1), setInsert (idx + 1) (acc.2.erase idx))
            else acc)
          (st.parts, old)
        ({ st with parts := res.1, selected := res.2 }, .moved)

/-- One scope's registry key as seen by a read: whether
open_subkey_with_flags(KEY_READ) succeeds, and the named value if present.
The UTF-16 decode of a present raw value is abstracted away: the view holds
the already-decoded text, which no claim inspects. -/
structure RegKeyView where
  opens : Bool
  value : Option (List Char × RegType)
deriving DecidableEq

/-- read_reg_value (main.rs:867-877): a key-open failure propagates (the `?`
on open_subkey_with_flags); an absent value yields Ok(("", REG_SZ)). -/
def read_reg_value (k : RegKeyView) : Except Unit (List Char × RegType) :=
  if k.opens then
    match k.value with
    | some v => .ok v
    | none => .ok ([], .REG_SZ)
  else .error ()

/-- The registry read operation as performed per scope at startup
(main.rs:120-127): read_reg_value with unwrap_or_else falling back to
(String::new(), REG_SZ). -/
def read_path_scope (k : RegKeyView) : List Char × RegType :=
  match read_reg_value k with
  | .ok v => v
  | .error _ => ([], .REG_SZ)

/-- The value-type selection step of write_path (main.rs:332-338): start from
the stored type; a present token forces REG_EXPAND_SZ; otherwise any type
other than REG_SZ/REG_EXPAND_SZ falls back to REG_SZ, and those two are kept
unchanged. -/
def selectVtype (value : List Char) (prev : RegType) : RegType :=
  if has_env_token value then .REG_EXPAND_SZ
  else if prev ≠ .REG_SZ ∧ prev ≠ .REG_EXPAND_SZ then .REG_SZ
  else prev

/-- PathEditorApp state relevant to saving (main.rs:107-114): the two scope
stores and the cached elevation flag. -/
structure AppState where
  user : PathStore
  system : PathStore
  is_admin : Bool
deriving DecidableEq

/-- Externally visible calls made by write_path, in order: the registry
set-value call (main.rs:341-356), the WM_SETTINGCHANGE broadcast
(main.rs:360), and the process-environment PATH update (main.rs:362-375). -/
inductive Effect where
  | regWrite (is_system : Bool) (value : List Char) (vtype : RegType)
  | broadcast
  | setProcessPath (value : List Char)
deriving DecidableEq

/-- write_path (main.rs:329-378).  `writeOk` says whether the registry
set-value call succeeds.  On success the scope's reg_type is updated, a
broadcast is sent and the process PATH is set (for a System save, to the
User entries followed by the System entries); on failure the `?` returns
early with the state unchanged.  Returns the new app state, the trace of
external calls in order, and the success flag. -/
def write_path (writeOk : Bool) (app : AppState) (is_system : Bool) :
    AppState × List Effect × Bool :=
  let store := if is_system then app.system else app.user
  let value := join_path store.parts
  let vtype := selectVtype value store.reg_type
  if writeOk then
    let app' :=
      if is_system then { app with system := { app.system with reg_type := vtype } }
      else { app with user := { app.user with reg_type := vtype } }
    let newPath :=
      if is_system then join_path (app.user.parts ++ app.system.parts)
      else value
    (app', [.regWrite is_system value vtype, .broadcast, .setProcessPath newPath], true)
  else (app, [.regWrite is_system value vtype], false)

/-- Outcome of save_one: the not-elevated rejection dialog (main.rs:256-264),
a successful save (main.rs:267-277), or a failed write (main.rs:279-286). -/
inductive SaveOutcome where
  | rejectedNotAdmin
  | saved
  | failed
deriving DecidableEq

/-- save_one (main.rs:255-288): a System save while not elevated is rejected
before write_path is entered; otherwise write_path runs and its result is
reported. -/
def save_one (writeOk : Bool) (app : AppState) (is_system : Bool) :
    AppState × List Effect × SaveOutcome :=
  if is_system && !app.is_admin then (app, [], .rejectedNotAdmin)
  else
    let r := write_path writeOk app is_system
    (r.1, r.2.1, if r.2.2 then .saved else .failed)

/-- Spec wording for `has_token` and the encoding decision: the text contains
a well-formed %NAME% token - a '%', one or more non-'%' characters, a '%'. -/
def ContainsToken (s : List Char) : Prop :=
  ∃ a name b, s = a ++ '%' :: (name ++ '%' :: b) ∧ name ≠ [] ∧ '%' ∉ name

/-- Spec wording for dedupe: keep an entry iff its compare key has not
occurred at an earlier position of the original list; `earlier` accumulates
every entry already passed, kept or not. -/
def dedupeSpec (env : EnvMap) (earlier : List (List Char)) :
    List (List Char) → List (List Char)
  | [] => []
  | p :: ps =>
    if ∀ q ∈ earlier, normalize_for_compare env q ≠ normalize_for_compare env p then
      p :: dedupeSpec env (earlier ++ [p]) ps
    else dedupeSpec env (earlier ++ [p]) ps

/-- Spec wording for one move-up pass: process selected positions in
ascending order (the selection list, kept sorted), swapping each selected
position with its predecessor unless the predecessor is itself selected or
the position is 0. -/
def specMoveUpOnce (sel : List Nat) (parts : List (List Char)) : List (List Char) :=
  sel.foldl
    (fun ps idx => if idx ≠ 0 ∧ ¬ (idx - 1) ∈ sel then listSwap ps idx (idx - 1) else ps)
    parts

/-- The environment in which no variable is set. -/
def envNone : EnvMap := fun _ => none

/-- The list ["A","B","C","D"] with selection {1,2}, no filter (spec section 8). -/
def exStoreABCD : PathStore :=
  { parts := [['A'], ['B'], ['C'], ['D']], filter := [], selected := [1, 2],
    reg_type := .REG_SZ }

/-- A store whose filter text is non-empty but whitespace-only. -/
def exStoreWsFilter : PathStore :=
  { parts := [['A'], ['B']], filter := [' '], selected := [1], reg_type := .REG_SZ }

/-- A store with an active (non-whitespace) filter. -/
def exStoreXFilter : PathStore :=
  { parts := [['A'], ['B']], filter := ['x'], selected := [1], reg_type := .REG_SZ }

/-- An environment where only the variable "a" is set, to a value that itself
contains a '%'. -/
def envX : EnvMap := fun n => if n = ['a'] then some ['X', '%', 'Y'] else none

/-- An unelevated app state over small stores. -/
def exApp : AppState :=
  { user := { parts := [['C', ':', '\\', 'T']], filter := [], selected := [],
              reg_type := .REG_SZ },
    system := { parts := [], filter := [], selected := [], reg_type := .REG_SZ },
    is_admin := false }

theorem notPercent_true {d : Char} : notPercent d = true ↔ d ≠ '%' := by
  simp [notPercent]

theorem notPercent_false {d : Char} : notPercent d = false ↔ d = '%' := by
  simp [notPercent]

theorem takeWhile_append_of_all {p : Char → Bool} {xs : List Char} (ys : List Char)
    (h : ∀ x ∈ xs, p x = true) :
    (xs ++ ys).takeWhile p = xs ++ ys.takeWhile p := by
  induction xs with
  | nil => simp
  | cons x xs ih =>
    have hx : p x = true := h x (List.mem_cons_self x xs)
    simp only [List.cons_append, List.takeWhile_cons, hx, if_true]
    rw [ih fun y hy => h y (List.mem_cons_of_mem x hy)]

theorem dropWhile_append_of_all {p : Char → Bool} {xs : List Char} (ys : List Char)
    (h : ∀ x ∈ xs, p x = true) :
    (xs ++ ys).dropWhile p = ys.dropWhile p := by
  induction xs with
  | nil => simp
  | cons x xs ih =>
    have hx : p x = true := h x (List.mem_cons_self x xs)
    simp only [List.cons_append, List.dropWhile_cons, hx, if_true]
    exact ih fun y hy => h y (List.mem_cons_of_mem x hy)

theorem dropWhile_head_false {p : Char → Bool} {l t : List Char} {c : Char}
    (h : l.dropWhile p = c :: t) : p c = false := by
  induction l with
  | nil => simp at h
  | cons x xs ih =>
    by_cases hx : p x = true
    · rw [List.dropWhile_cons, if_pos hx] at h
      exact ih h
    · rw [List.dropWhile_cons, if_neg hx] at h
      cases h
      exact Bool.not_eq_true _ ▸ hx

theorem has_env_token_cons_of {c : Char} {tail : List Char}
    (h : has_env_token tail = true) : has_env_token (c :: tail) = true := by
  rw [has_env_token]
  split
  · split
    · rfl
    · exact h
  · exact h

theorem has_env_token_of_token (a name b : List Char) (hne : name ≠ [])
    (hnp : '%' ∉ name) :
    has_env_token (a ++ '%' :: (name ++ '%' :: b)) = true := by
  induction a with
  | nil =>
    simp only [List.nil_append]
    rw [has_env_token, if_pos rfl]
    have hall : ∀ x ∈ name, notPercent x = true :=
      fun x hx => notPercent_true.mpr fun hpc => hnp (hpc ▸ hx)
    have htw : (name ++ '%' :: b).takeWhile notPercent = name := by
      rw [takeWhile_append_of_all _ hall, List.takeWhile_cons]
      simp [notPercent]
    have hdw : (name ++ '%' :: b).dropWhile notPercent = '%' :: b := by
      rw [dropWhile_append_of_all _ hall, List.dropWhile_cons]
      simp [notPercent]
    rw [htw, hdw]
    simp [hne]
  | cons x a iha =>
    exact has_env_token_cons_of iha

/-- The scan of has_env_token (main.rs:782-798) reports exactly the presence
of a well-formed token: a '%', one or more non-'%' characters, a '%'. -/
theorem has_env_token_iff (s : List Char) : has_env_token s = true ↔ ContainsToken s := by
  induction s with
  | nil =>
    rw [has_env_token]
    constructor
    · intro h; cases h
    · rintro ⟨a, name, b, h, -, -⟩
      exact absurd h (by simp)
  | cons c rest ih =>
    constructor
    · intro h
      rw [has_env_token] at h
      by_cases hc : c = '%'
      · rw [if_pos hc] at h
        by_cases hcond :
            (!(rest.dropWhile notPercent).isEmpty && !(rest.takeWhile notPercent).isEmpty) = true
        · obtain ⟨hdw, htw⟩ := Bool.and_eq_true_iff.mp hcond
          have hdw' : rest.dropWhile notPercent ≠ [] := by
            intro hnil
            rw [hnil] at hdw
            cases hdw
          have htw' : rest.takeWhile notPercent ≠ [] := by
            intro hnil
            rw [hnil] at htw
            cases htw
          obtain ⟨d, t, hdt⟩ := List.exists_cons_of_ne_nil hdw'
          have hd : d = '%' := notPercent_false.mp (dropWhile_head_false hdt)
          refine ⟨[], rest.takeWhile notPercent, t, ?_, htw', ?_⟩
          · rw [hc]
            simp only [List.nil_append]
            rw [← hd, ← hdt, List.takeWhile_append_dropWhile]
          · intro hmem
            exact notPercent_true.mp (List.mem_takeWhile_imp hmem) rfl
        · rw [if_neg hcond] at h
          obtain ⟨a, name, b, heq, hne, hnp⟩ := ih.mp h
          exact ⟨c :: a, name, b, by simp [heq], hne, hnp⟩
      · rw [if_neg hc] at h
        obtain ⟨a, name, b, heq, hne, hnp⟩ := ih.mp h
        exact ⟨c :: a, name, b, by simp [heq], hne, hnp⟩
    · rintro ⟨a, name, b, heq, hne, hnp⟩
      rw [heq]
      exact has_env_token_of_token a name b hne hnp

/-- C8: has_env_token is true iff the string contains at least one
well-formed %NAME% token with a non-empty name, independent of the
environment; concretely it is true on "%SystemRoot%\System32" and false on
"C:\Tools" and on "50%". -/
theorem claim_C8_theorem :
    (∀ s : List Char, has_env_token s = true ↔ ContainsToken s)
    ∧ has_env_token (String.toList "%SystemRoot%\\System32") = true
    ∧ has_env_token (String.toList "C:\\Tools") = false
    ∧ has_env_token (String.toList "50%") = false :=
  ⟨has_env_token_iff, by decide, by decide, by decide⟩

/-- C4: the selected encoding is Expandable when the serialized text contains
a well-formed token; otherwise a previous encoding of Plain or Expandable is
kept, and anything else defaults to Plain. -/
theorem claim_C4_theorem (value : List Char) (prev : RegType) :
    (ContainsToken value → selectVtype value prev = .REG_EXPAND_SZ)
    ∧ (¬ ContainsToken value →
        ((prev = .REG_SZ ∨ prev = .REG_EXPAND_SZ) → selectVtype value prev = prev)
        ∧ (¬ (prev = .REG_SZ ∨ prev = .REG_EXPAND_SZ) → selectVtype value prev = .REG_SZ)) := by
  by_cases h : has_env_token value = true
  · refine ⟨fun _ => ?_, fun hno => absurd ((has_env_token_iff value).mp h) hno⟩
    rw [selectVtype, if_pos h]
  · have h' : has_env_token value = false := Bool.not_eq_true _ ▸ h
    refine ⟨fun htok => absurd ((has_env_token_iff value).mpr htok) (h' ▸ by simp), fun _ => ⟨?_, ?_⟩⟩
    · intro hkeep
      rw [selectVtype, if_neg (by rw [h']; exact Bool.false_ne_true)]
      rcases hkeep with h1 | h1 <;> subst h1 <;> simp
    · intro hother
      push_neg at hother
      rw [selectVtype, if_neg (by rw [h']; exact Bool.false_ne_true), if_pos hother]

theorem claim_C4_witness :
    selectVtype (String.toList "%SystemRoot%") RegType.REG_SZ = RegType.REG_EXPAND_SZ :=
  (claim_C4_theorem (String.toList "%SystemRoot%") RegType.REG_SZ).1
    ⟨[], String.toList "SystemRoot", [], by decide, by decide, by decide⟩

/-- C2: the startup registry read returns empty text and the Plain (REG_SZ)
type both when the named value is absent and when the scope's key cannot be
opened; in both cases no error escapes. -/
theorem claim_C2_theorem (k : RegKeyView) (h : k.value = none ∨ k.opens = false) :
    read_path_scope k = ([], RegType.REG_SZ) := by
  rcases h with h | h
  · by_cases hop : k.opens = true
    · simp [read_path_scope, read_reg_value, h, hop]
    · simp [read_path_scope, read_reg_value, Bool.not_eq_true _ ▸ hop]
  · simp [read_path_scope, read_reg_value, h]

theorem claim_C2_witness : read_path_scope ⟨false, none⟩ = ([], RegType.REG_SZ) :=
  claim_C2_theorem ⟨false, none⟩ (Or.inl rfl)

/-- C5: saving the System scope while not elevated is rejected before any
registry write call, leaving the app state unchanged and producing no
external effect; saving the User scope always reaches the registry write,
with an outcome that is never the elevation rejection. -/
theorem claim_C5_theorem (writeOk : Bool) (app : AppState) :
    (app.is_admin = false →
        save_one writeOk app true = (app, [], SaveOutcome.rejectedNotAdmin))
    ∧ (save_one writeOk app false).2.2 ≠ SaveOutcome.rejectedNotAdmin
    ∧ Effect.regWrite false (join_path app.user.parts)
          (selectVtype (join_path app.user.parts) app.user.reg_type)
        ∈ (save_one writeOk app false).2.1 := by
  refine ⟨fun h => ?_, ?_, ?_⟩
  · simp [save_one, h]
  · cases writeOk <;> simp [save_one, write_path]
  · cases writeOk <;> simp [save_one, write_path]

theorem claim_C5_witness :
    save_one true exApp true = (exApp, [], SaveOutcome.rejectedNotAdmin) :=
  (claim_C5_theorem true exApp).1 rfl

/-- C9 as stated is false: a whitespace-only filter is non-empty text, yet
the move proceeds and mutates the list. -/
theorem claim_C9_counterexample :
    exStoreWsFilter.filter ≠ []
    ∧ move_selected exStoreWsFilter (-1) ≠ (exStoreWsFilter, MoveOutcome.filteredReject)
    ∧ (move_selected exStoreWsFilter (-1)).1.parts ≠ exStoreWsFilter.parts := by
  decide

/-- C9 amended: whenever the filter text is non-empty after trimming
whitespace, a move in either direction is rejected with the filter notice and
the store (entries and selection alike) is returned unchanged. -/
theorem claim_C9_theorem (st : PathStore) (d : Int) (h : trim st.filter ≠ []) :
    move_selected st d = (st, MoveOutcome.filteredReject) := by
  have hne : (trim st.filter).isEmpty = false := by
    rcases he : trim st.filter with - | -
    · exact absurd he h
    · rfl
  rw [move_selected, hne]
  rfl

theorem claim_C9_witness :
    move_selected exStoreXFilter (-1) = (exStoreXFilter, MoveOutcome.filteredReject) :=
  claim_C9_theorem exStoreXFilter (-1) (by decide)

theorem expandNameScan_some {env : EnvMap} {name v : List Char}
    (accRev rest : List Char) (hnp : '%' ∉ name)
    (henv : env (accRev.reverse ++ name) = some v) :
    expandNameScan env accRev (name ++ '%' :: rest) = v ++ expand_env_vars env rest := by
  induction name generalizing accRev with
  | nil =>
    rw [List.append_nil] at henv
    simp [expandNameScan, henv]
  | cons n nt ih =>
    have hn : ¬ n = '%' := fun h => hnp (h ▸ List.mem_cons_self n nt)
    rw [List.cons_append, expandNameScan, if_neg hn]
    rw [ih (n :: accRev) (fun h => hnp (List.mem_cons_of_mem n h))
      (by rwa [List.reverse_cons, List.append_assoc, List.singleton_append])]

theorem expandNameScan_none {env : EnvMap} {name : List Char}
    (accRev rest : List Char) (hnp : '%' ∉ name)
    (henv : env (accRev.reverse ++ name) = none) :
    expandNameScan env accRev (name ++ '%' :: rest) =
      '%' :: ((accRev.reverse ++ name) ++ '%' :: expand_env_vars env rest) := by
  induction name generalizing accRev with
  | nil =>
    rw [List.append_nil] at henv
    simp [expandNameScan, henv]
  | cons n nt ih =>
    have hn : ¬ n = '%' := fun h => hnp (h ▸ List.mem_cons_self n nt)
    rw [List.cons_append, expandNameScan, if_neg hn]
    rw [ih (n :: accRev) (fun h => hnp (List.mem_cons_of_mem n h))
      (by rwa [List.reverse_cons, List.append_assoc, List.singleton_append])]
    simp

theorem expandNameScan_no_percent {env : EnvMap} {l : List Char}
    (accRev : List Char) (h : '%' ∉ l) :
    expandNameScan env accRev l = '%' :: (accRev.reverse ++ l) := by
  induction l generalizing accRev with
  | nil => simp [expandNameScan]
  | cons c rest ih =>
    have hc : ¬ c = '%' := fun hcc => h (hcc ▸ List.mem_cons_self c rest)
    rw [expandNameScan, if_neg hc, ih (c :: accRev) (fun hm => h (List.mem_cons_of_mem c hm))]
    rw [List.reverse_cons, List.append_assoc, List.singleton_append]

theorem expand_cons_ne {env : EnvMap} {c : Char} (rest : List Char) (hc : c ≠ '%') :
    expand_env_vars env (c :: rest) = c :: expand_env_vars env rest := by
  rw [expand_env_vars, if_neg hc]

theorem expand_token_some {env : EnvMap} {name v : List Char} (rest : List Char)
    (hne : name ≠ []) (hnp : '%' ∉ name) (henv : env name = some v) :
    expand_env_vars env ('%' :: (name ++ '%' :: rest)) = v ++ expand_env_vars env rest := by
  obtain ⟨n, nt, rfl⟩ := List.exists_cons_of_ne_nil hne
  have hn : ¬ n = '%' := fun h => hnp (h ▸ List.mem_cons_self n nt)
  rw [expand_env_vars, if_pos rfl, List.cons_append, expandAfterPercent, if_neg hn]
  exact expandNameScan_some [n] rest (fun h => hnp (List.mem_cons_of_mem n h)) henv

theorem expand_token_none {env : EnvMap} {name : List Char} (rest : List Char)
    (hne : name ≠ []) (hnp : '%' ∉ name) (henv : env name = none) :
    expand_env_vars env ('%' :: (name ++ '%' :: rest)) =
      '%' :: (name ++ '%' :: expand_env_vars env rest) := by
  obtain ⟨n, nt, rfl⟩ := List.exists_cons_of_ne_nil hne
  have hn : ¬ n = '%' := fun h => hnp (h ▸ List.mem_cons_self n nt)
  rw [expand_env_vars, if_pos rfl, List.cons_append, expandAfterPercent, if_neg hn]
  rw [expandNameScan_none [n] rest (fun h => hnp (List.mem_cons_of_mem n h)) henv]
  rfl

theorem expand_unmatched {env : EnvMap} {rest : List Char} (h : '%' ∉ rest) :
    expand_env_vars env ('%' :: rest) = '%' :: rest := by
  rw [expand_env_vars, if_pos rfl]
  cases rest with
  | nil => rfl
  | cons c r =>
    have hc : ¬ c = '%' := fun hcc => h (hcc ▸ List.mem_cons_self c r)
    rw [expandAfterPercent, if_neg hc,
      expandNameScan_no_percent [c] (fun hm => h (List.mem_cons_of_mem c hm))]
    rfl

theorem expand_empty_name (env : EnvMap) (rest : List Char) :
    expand_env_vars env ('%' :: '%' :: rest) = '%' :: expand_env_vars env ('%' :: rest) := by
  rw [expand_env_vars, if_pos rfl, expandAfterPercent, if_pos rfl,
    expand_env_vars, if_pos rfl]

/-- C3: the expander scans left to right in a single pass.  The six clauses
state the whole scan behaviour: the empty input; a verbatim non-'%' head; a
leftmost well-formed %NAME% token substituted by the value when NAME is set,
and the value is emitted verbatim (never re-expanded) even if it contains
'%'; the same token left verbatim when NAME is unset; an unmatched '%' left
verbatim; and the '%%' empty-name malformed token left verbatim, resuming at
the second '%'. -/
theorem claim_C3_theorem :
    (∀ env : EnvMap, expand_env_vars env [] = [])
    ∧ (∀ (env : EnvMap) (c : Char) (rest : List Char), c ≠ '%' →
        expand_env_vars env (c :: rest) = c :: expand_env_vars env rest)
    ∧ (∀ (env : EnvMap) (name v rest : List Char), name ≠ [] → '%' ∉ name →
        env name = some v →
        expand_env_vars env ('%' :: (name ++ '%' :: rest)) = v ++ expand_env_vars env rest)
    ∧ (∀ (env : EnvMap) (name rest : List Char), name ≠ [] → '%' ∉ name →
        env name = none →
        expand_env_vars env ('%' :: (name ++ '%' :: rest)) =
          '%' :: (name ++ '%' :: expand_env_vars env rest))
    ∧ (∀ (env : EnvMap) (rest : List Char), '%' ∉ rest →
        expand_env_vars env ('%' :: rest) = '%' :: rest)
    ∧ (∀ (env : EnvMap) (rest : List Char),
        expand_env_vars env ('%' :: '%' :: rest) = '%' :: expand_env_vars env ('%' :: rest)) :=
  ⟨fun _ => rfl,
   fun _ _ rest hc => expand_cons_ne rest hc,
   fun _ _ _ rest hne hnp henv => expand_token_some rest hne hnp henv,
   fun _ _ rest hne hnp henv => expand_token_none rest hne hnp henv,
   fun _ _ h => expand_unmatched h,
   fun env rest => expand_empty_name env rest⟩

theorem claim_C3_witness :
    expand_env_vars envX ('%' :: (['a'] ++ '%' :: ['b'])) =
      ['X', '%', 'Y'] ++ expand_env_vars envX ['b'] :=
  claim_C3_theorem.2.2.1 envX ['a'] ['X', '%', 'Y'] ['b']
    (by decide) (by decide) (by decide)

/-- C10: a string with no well-formed token is left character-for-character
unchanged by expansion, in every environment. -/
theorem claim_C10_theorem (env : EnvMap) (s : List Char)
    (h : has_env_token s = false) :
    expand_env_vars env s = s := by
  induction s with
  | nil => rfl
  | cons c rest ih =>
    by_cases hc : c = '%'
    · subst hc
      cases rest with
      | nil => rfl
      | cons d r =>
        by_cases hd : d = '%'
        · subst hd
          rw [has_env_token, if_pos rfl] at h
          have hcond :
              (!(List.dropWhile notPercent ('%' :: r)).isEmpty
                && !(List.takeWhile notPercent ('%' :: r)).isEmpty) = false := by
            rw [List.takeWhile_cons]
            simp [notPercent]
          rw [hcond] at h
          rw [expand_empty_name, ih h]
        · rw [has_env_token, if_pos rfl] at h
          have htw : (List.takeWhile notPercent (d :: r)).isEmpty = false := by
            rw [List.takeWhile_cons, if_pos (notPercent_true.mpr hd)]
            rfl
          cases hdwe : (List.dropWhile notPercent (d :: r)).isEmpty with
          | false =>
            rw [hdwe, htw] at h
            simp at h
          | true =>
            have hnp : '%' ∉ d :: r := by
              intro hmem
              have hall := List.dropWhile_eq_nil_iff.mp (List.isEmpty_iff.mp hdwe)
              exact notPercent_true.mp (hall '%' hmem) rfl
            exact expand_unmatched hnp
    · rw [has_env_token, if_neg hc] at h
      rw [expand_cons_ne rest hc, ih h]

theorem claim_C10_witness :
    has_env_token (String.toList "50%") = false
    ∧ expand_env_vars envX (String.toList "50%") = String.toList "50%" :=
  ⟨by decide, claim_C10_theorem envX (String.toList "50%") (by decide)⟩

theorem splitSemi_no_semi {x : List Char} (hx : ';' ∉ x) : splitSemi x = [x] := by
  induction x with
  | nil => rfl
  | cons c x' ih =>
    have hc : ¬ c = ';' := fun h => hx (h ▸ List.mem_cons_self c x')
    rw [splitSemi, if_neg hc, ih fun h => hx (List.mem_cons_of_mem c h)]

theorem splitSemi_append {x : List Char} (r : List Char) (hx : ';' ∉ x) :
    splitSemi (x ++ ';' :: r) = x :: splitSemi r := by
  induction x with
  | nil => simp [splitSemi]
  | cons c x' ih =>
    have hc : ¬ c = ';' := fun h => hx (h ▸ List.mem_cons_self c x')
    rw [List.cons_append, splitSemi, if_neg hc, ih fun h => hx (List.mem_cons_of_mem c h)]

theorem split_path_cons (x r : List Char) (hns : ';' ∉ x) (hxe : x.isEmpty = false)
    (htr : trim x = x) :
    split_path (x ++ ';' :: r) = x :: split_path r := by
  rw [split_path, splitSemi_append r hns, List.map_cons, htr, List.filter_cons]
  simp [hxe, split_path]

/-- C6: for lists of non-empty, trimmed, semicolon-free entries, joining with
';' and splitting gives back the entries, order and duplicates preserved. -/
theorem claim_C6_theorem (xs : List (List Char))
    (h : ∀ x ∈ xs, x ≠ [] ∧ trim x = x ∧ ';' ∉ x) :
    split_path (join_path xs) = xs := by
  induction xs with
  | nil => rfl
  | cons x xs ih =>
    obtain ⟨hne, htr, hns⟩ := h x (List.mem_cons_self x xs)
    have hxe : x.isEmpty = false := by
      cases x with
      | nil => exact absurd rfl hne
      | cons c t => rfl
    cases xs with
    | nil =>
      rw [show join_path [x] = x from rfl, split_path, splitSemi_no_semi hns]
      simp [htr, hxe]
    | cons y ys =>
      rw [show join_path (x :: y :: ys) = x ++ ';' :: join_path (y :: ys) from rfl,
        split_path_cons x _ hns hxe htr,
        ih fun z hz => h z (List.mem_cons_of_mem x hz)]

theorem claim_C6_witness : split_path (join_path [['a'], ['b']]) = [['a'], ['b']] :=
  claim_C6_theorem [['a'], ['b']] (by decide)

theorem dedupeGo_eq_spec (env : EnvMap) (l : List (List Char)) :
    ∀ seen earlier : List (List Char),
      (∀ k, k ∈ seen ↔ ∃ q ∈ earlier, normalize_for_compare env q = k) →
      dedupeGo env seen l = dedupeSpec env earlier l := by
  induction l with
  | nil => intro seen earlier _; rfl
  | cons p ps ih =>
    intro seen earlier hinv
    by_cases hk : normalize_for_compare env p ∈ seen
    · obtain ⟨q, hq, hqe⟩ := (hinv _).mp hk
      have hcond : ¬ ∀ q ∈ earlier,
          normalize_for_compare env q ≠ normalize_for_compare env p :=
        fun hall => hall q hq hqe
      have h1 : dedupeGo env seen (p :: ps) = dedupeGo env seen ps := by
        simp [dedupeGo, hk]
      have h2 : dedupeSpec env earlier (p :: ps) = dedupeSpec env (earlier ++ [p]) ps := by
        rw [dedupeSpec, if_neg hcond]
      rw [h1, h2]
      refine ih seen (earlier ++ [p]) fun k => ⟨fun hks => ?_, fun hke => ?_⟩
      · obtain ⟨q', hq', hq'e⟩ := (hinv k).mp hks
        exact ⟨q', List.mem_append_left _ hq', hq'e⟩
      · obtain ⟨q', hq', hq'e⟩ := hke
        rcases List.mem_append.mp hq' with hq'' | hq''
        · exact (hinv k).mpr ⟨q', hq'', hq'e⟩
        · rw [List.mem_singleton.mp hq''] at hq'e
          rw [← hq'e]
          exact hk
    · have hcond : ∀ q ∈ earlier,
          normalize_for_compare env q ≠ normalize_for_compare env p :=
        fun q hq hqe => hk ((hinv _).mpr ⟨q, hq, hqe⟩)
      have h1 : dedupeGo env seen (p :: ps)
          = p :: dedupeGo env (normalize_for_compare env p :: seen) ps := by
        simp [dedupeGo, hk]
      have h2 : dedupeSpec env earlier (p :: ps)
          = p :: dedupeSpec env (earlier ++ [p]) ps := by
        rw [dedupeSpec, if_pos hcond]
      rw [h1, h2]
      refine congrArg (p :: ·)
        (ih _ (earlier ++ [p]) fun k => ⟨fun hks => ?_, fun hke => ?_⟩)
      · rcases List.mem_cons.mp hks with hks' | hks'
        · exact ⟨p, List.mem_append_right _ (List.mem_singleton_self p), hks'.symm⟩
        · obtain ⟨q', hq', hq'e⟩ := (hinv k).mp hks'
          exact ⟨q', List.mem_append_left _ hq', hq'e⟩
      · obtain ⟨q', hq', hq'e⟩ := hke
        rcases List.mem_append.mp hq' with hq'' | hq''
        · exact List.mem_cons_of_mem _ ((hinv k).mpr ⟨q', hq'', hq'e⟩)
        · rw [List.mem_singleton.mp hq''] at hq'e
          rw [← hq'e]
          exact List.mem_cons_self _ _

theorem dedupeGo_sublist (env : EnvMap) (l : List (List Char)) :
    ∀ seen : List (List Char), (dedupeGo env seen l).Sublist l := by
  induction l with
  | nil => intro seen; exact List.Sublist.refl []
  | cons p ps ih =>
    intro seen
    by_cases hk : normalize_for_compare env p ∈ seen
    · have h1 : dedupeGo env seen (p :: ps) = dedupeGo env seen ps := by
        simp [dedupeGo, hk]
      rw [h1]
      exact (ih seen).cons p
    · have h1 : dedupeGo env seen (p :: ps)
          = p :: dedupeGo env (normalize_for_compare env p :: seen) ps := by
        simp [dedupeGo, hk]
      rw [h1]
      exact (ih _).cons₂ p

/-- C7: dedupe keeps an entry iff its compare key has not occurred at an
earlier position, preserving the order and the original text of kept entries
(the result is a sublist of the input); concretely ["C:\A", "C:\B", "c:\a"]
dedupes to ["C:\A", "C:\B"]. -/
theorem claim_C7_theorem :
    (∀ (env : EnvMap) (parts : List (List Char)),
        dedupe env parts = dedupeSpec env [] parts
        ∧ (dedupe env parts).Sublist parts)
    ∧ dedupe envNone
        [String.toList "C:\\A", String.toList "C:\\B", String.toList "c:\\a"]
      = [String.toList "C:\\A", String.toList "C:\\B"] :=
  ⟨fun env parts =>
    ⟨dedupeGo_eq_spec env parts [] [] (by simp), dedupeGo_sublist env parts []⟩,
   by decide⟩

theorem moveUpFold_fst (old l : List Nat) :
    ∀ (p : List (List Char)) (s : List Nat),
      (l.foldl (fun acc idx =>
          if 0 < idx ∧ ¬ (idx - 1) ∈ old then
            (listSwap acc.1 idx (idx - 1), setInsert (idx - 1) (acc.2.erase idx))
          else acc) (p, s)).1
      = l.foldl (fun ps idx =>
          if idx ≠ 0 ∧ ¬ (idx - 1) ∈ old then listSwap ps idx (idx - 1) else ps) p := by
  induction l with
  | nil => intro p s; rfl
  | cons i l ih =>
    intro p s
    rw [List.foldl_cons, List.foldl_cons]
    by_cases hc : 0 < i ∧ ¬ (i - 1) ∈ old
    · rw [if_pos hc, if_pos ⟨Nat.pos_iff_ne_zero.mp hc.1, hc.2⟩]
      exact ih _ _
    · rw [if_neg hc, if_neg fun hc2 => hc ⟨Nat.pos_iff_ne_zero.mpr hc2.1, hc2.2⟩]
      exact ih _ _

/-- C1 as stated is false on the code: one move-up on ["A","B","C","D"] with
selection {1,2} and no filter does NOT yield ["B","C","A","D"]. -/
theorem claim_C1_counterexample :
    (move_selected exStoreABCD (-1)).1.parts ≠ [['B'], ['C'], ['A'], ['D']] := by
  decide

/-- C1 amended: with no active filter and a non-empty selection, one move-up
processes the selected positions in ascending order, swapping each with its
predecessor unless the predecessor is itself selected or the position is 0;
on ["A","B","C","D"] with selection {1,2} this yields ["B","A","C","D"] (the
interior of the contiguous block does not move, because its predecessor is in
the original selection). -/
theorem claim_C1_theorem :
    (∀ st : PathStore, trim st.filter = [] → st.selected ≠ [] →
        (move_selected st (-1)).1.parts = specMoveUpOnce st.selected st.parts)
    ∧ (move_selected exStoreABCD (-1)).1.parts = [['B'], ['A'], ['C'], ['D']] := by
  constructor
  · intro st h1 h2
    have hd : ((-1 : Int) < 0) := by decide
    simp only [move_selected, h1, List.isEmpty_nil, Bool.not_true, Bool.false_eq_true,
      if_false, if_neg h2, if_pos hd]
    exact moveUpFold_fst st.selected st.selected st.parts st.selected
  · decide

theorem claim_C1_witness :
    (move_selected exStoreABCD (-1)).1.parts
      = specMoveUpOnce exStoreABCD.selected exStoreABCD.parts :=
  claim_C1_theorem.1 exStoreABCD (by decide) (by decide)

end PathEditorNative
